import Mathlib

/-!
Verification development for the expression-tree evaluation core of the
operon symbolic-regression framework.

The definitions below are shallow embeddings of the C++ sources:
  * `src/include/operon/core/node.hpp`            → `NodeType`, `Node`, …
  * `src/include/operon/interpreter/interpreter.hpp`
       → `GenericInterpreter::Evaluate` (all three overloads) and
         `detail::op` / `detail::dispatch_op` (the batch kernels).
  * `src/include/operon/autodiff/forward/forward.hpp`
       → `DerivativeCalculator::operator()`.

Machine floating point (`Operon::Scalar`) is modelled by `ℚ`; the structural
claims below are independent of the concrete arithmetic.  Stateful loops are
modelled by explicit state threading; `for`/`do-while` loops become
structurally recursive functions (a fuel argument bounds loops whose C++
counterpart advances an index by a positive stride).
-/

namespace Operon

/-- The closed node-kind enumeration of `node.hpp` (31 kinds). -/
inductive NodeType where
  | Add | Mul | Sub | Div | Aq | Fmax | Fmin | Pow
  | Abs | Acos | Asin | Atan | Cbrt | Ceil | Cos | Cosh | Exp | Floor
  | Log | Logabs | Log1p | Sin | Sinh | Sqrt | Sqrtabs | Tan | Tanh | Square
  | Dynamic | Constant | Variable
  deriving DecidableEq, Fintype

/-- The underlying `uint32_t` value of each enumerator: `1u << k` in
declaration order, exactly as in `node.hpp`. -/
def NodeType.val : NodeType → ℕ
  | .Add => 1 <<< 0
  | .Mul => 1 <<< 1
  | .Sub => 1 <<< 2
  | .Div => 1 <<< 3
  | .Aq => 1 <<< 4
  | .Fmax => 1 <<< 5
  | .Fmin => 1 <<< 6
  | .Pow => 1 <<< 7
  | .Abs => 1 <<< 8
  | .Acos => 1 <<< 9
  | .Asin => 1 <<< 10
  | .Atan => 1 <<< 11
  | .Cbrt => 1 <<< 12
  | .Ceil => 1 <<< 13
  | .Cos => 1 <<< 14
  | .Cosh => 1 <<< 15
  | .Exp => 1 <<< 16
  | .Floor => 1 <<< 17
  | .Log => 1 <<< 18
  | .Logabs => 1 <<< 19
  | .Log1p => 1 <<< 20
  | .Sin => 1 <<< 21
  | .Sinh => 1 <<< 22
  | .Sqrt => 1 <<< 23
  | .Sqrtabs => 1 <<< 24
  | .Tan => 1 <<< 25
  | .Tanh => 1 <<< 26
  | .Square => 1 <<< 27
  | .Dynamic => 1 <<< 28
  | .Constant => 1 <<< 29
  | .Variable => 1 <<< 30

namespace NodeTypes

/-- magic number keeping track of the number of different node types
(`NodeTypes::Count` in `node.hpp`). -/
def Count : ℕ := 31

/-- `std::bitset<Count>(x).count()`: population count of the low `Count`
bits of `x`. -/
def bitsetCount (x : ℕ) : ℕ := (List.range Count).countP fun i => x.testBit i

/-- `NodeTypes::GetIndex`: index of the given type in the `NodeType` enum,
computed as `std::bitset<Count>(static_cast<utype>(type) - 1).count()`. -/
def GetIndex (type : NodeType) : ℕ := bitsetCount (type.val - 1)

end NodeTypes

/-- The per-node record of `node.hpp`.  Only the fields read by the
evaluation core are retained (`CalculatedHashValue`, `Depth`, `Level`,
`Parent`, `IsEnabled` are bookkeeping the interpreter never reads).
`Optimize` is the learnable-parameter bit consumed by the interpreter
(`interpreter.hpp` reads `n.Optimize`; the spec lists it among the node
fields). -/
structure Node where
  HashValue : ℕ
  Value : ℚ
  Arity : ℕ
  Length : ℕ
  NType : NodeType
  Optimize : Bool
  deriving DecidableEq

instance : Inhabited Node := ⟨{ HashValue := 0, Value := 0, Arity := 0, Length := 0, NType := NodeType.Add, Optimize := false }⟩

namespace Node

/-- The `Node(NodeType, Hash)` constructor of `node.hpp`: arity 2 for types
below `Abs`, arity 1 for types below `Constant`, otherwise 0; `Length`
initialised to `Arity`, `Value` to 1.  (`Optimize` is not touched by the
constructor; it defaults to unset.) -/
def construct (type : NodeType) (hashValue : ℕ) : Node :=
  { HashValue := hashValue
    Value := 1
    Arity := if type.val < NodeType.Abs.val then 2
             else if type.val < NodeType.Constant.val then 1
             else 0
    Length := if type.val < NodeType.Abs.val then 2
              else if type.val < NodeType.Constant.val then 1
              else 0
    NType := type
    Optimize := false }

/-- `Node::IsLeaf`: `Arity == 0`. -/
def IsLeaf (n : Node) : Bool := n.Arity == 0

/-- `Node::IsCommutative`: `Type < NodeType::Sub` (an enum-value
comparison). -/
def IsCommutative (n : Node) : Bool := n.NType.val < NodeType.Sub.val

/-- `Node::IsConstant`. -/
def IsConstant (n : Node) : Bool := n.NType == NodeType.Constant

/-- `Node::IsVariable`. -/
def IsVariable (n : Node) : Bool := n.NType == NodeType.Variable

end Node

/-- `Operon::Range`: a half-open `[start, end)` row interval. -/
structure Range where
  Start : ℕ
  End : ℕ
  deriving DecidableEq

/-- `Range::Size = end - start`. -/
def Range.Size (r : Range) : ℕ := r.End - r.Start

/-- `constexpr size_t BATCHSIZE = 64` of the batch-kernel section of
`interpreter.hpp`. -/
def BATCHSIZE : ℕ := 64

/-- The scalar-type interface at which the interpreter template is
instantiated (`template<typename T>` with `T` the primal scalar or the dual
type).  `ofScalar` models the `T{value}` / `.cast<T>()` conversions from
`Operon::Scalar`. -/
structure ScalarOps (T : Type) where
  zero : T
  add : T → T → T
  sub : T → T → T
  mul : T → T → T
  div : T → T → T
  neg : T → T
  inv : T → T
  ofScalar : ℚ → T

/-- The primal instantiation `T = Operon::Scalar`, modelled by `ℚ`. -/
def ratOps : ScalarOps ℚ where
  zero := 0
  add := fun a b => a + b
  sub := fun a b => a - b
  mul := fun a b => a * b
  div := fun a b => a / b
  neg := fun a => -a
  inv := fun a => 1 / a
  ofScalar := fun a => a

/-- One working-buffer column (`detail::Array<T>`): lane index within the
current row block ↦ value.  Lanes `≥ BATCHSIZE` are never read. -/
abbrev Col (T : Type) := ℕ → T

/-- The working buffer `m`: one column per node. -/
abbrev Buffer (T : Type) := ℕ → Col T

/-- Functional update of one buffer column. -/
def updCol (m : Buffer T) (i : ℕ) (c : Col T) : Buffer T :=
  fun j => if j = i then c else m j

/-- The C++ right fold `(args ⊕ ...)` over a non-empty argument pack
`x :: xs`. -/
def foldPack (f : T → T → T) (x : T) : List T → T
  | [] => x
  | y :: ys => f x (foldPack f y ys)

/-- `detail::op<T,N>::operator()(ret, arg1)` — the arity-1 kernel form:
negation for `Sub`, reciprocal for `Div`, identity for `Mul` and for the
primary template (which covers `Add` and every unspecialised kind). -/
def opUnary (O : ScalarOps T) (N : NodeType) (a : Col T) : Col T :=
  match N with
  | .Sub => fun r => O.neg (a r)
  | .Div => fun r => O.inv (a r)
  | .Mul => a
  | _ => a

/-- `detail::op<T,N>::operator()(ret, arg1, args...)` — the n-ary kernel
form `arg1 ⊕ (args ⊙ ...)`: `a − (b + c + …)` for `Sub`, `a · (b · c · …)`
for `Mul`, `a / (b · c · …)` for `Div`, and `a + (b + c + …)` for the
primary template (`Add` and every unspecialised kind). -/
def opNary (O : ScalarOps T) (N : NodeType) (a b : Col T) (rest : List (Col T)) : Col T :=
  match N with
  | .Sub => fun r => O.sub (a r) (foldPack O.add (b r) (rest.map fun c => c r))
  | .Mul => fun r => O.mul (a r) (foldPack O.mul (b r) (rest.map fun c => c r))
  | .Div => fun r => O.div (a r) (foldPack O.mul (b r) (rest.map fun c => c r))
  | _ => fun r => O.add (a r) (foldPack O.add (b r) (rest.map fun c => c r))

/-- `nextSibling` from `detail::dispatch_op`: `i - (nodes[i].Length + 1)`. -/
def nextSibling (nodes : List Node) (i : ℕ) : ℕ :=
  i - ((nodes.getD i default).Length + 1)

/-- The `do { switch (arity) { ... } } while (arity > 0)` loop of
`detail::dispatch_op`, with the mutable state (`r`, `i`, `continued`,
`arity`) threaded explicitly.  Cases 1–5 return; the `default:` branch
consumes five children, steps `i` past them, subtracts 5 from the arity
(written `ar + 1` for an incoming arity `ar + 6`) and sets `continued`.
Only case 1 consults `continued` (folding the accumulated column into the
result); cases 2–5 overwrite the accumulated column.  A node owning a
kernel always has arity ≥ 1; the arity-0 equation (the loop exits without
a defined write) returns the incoming column. -/
def dispatchLoop (O : ScalarOps T) (N : NodeType) (nodes : List Node) (m : Buffer T) :
    ℕ → Col T → ℕ → Bool → Col T
  | 0, r, _, _ => r
  | 1, r, i, continued =>
      if continued then opNary O N r (m i) [] else opUnary O N (m i)
  | 2, _, i, _ =>
      let j1 := nextSibling nodes i
      opNary O N (m i) (m j1) []
  | 3, _, i, _ =>
      let j1 := nextSibling nodes i
      let j2 := nextSibling nodes j1
      opNary O N (m i) (m j1) [m j2]
  | 4, _, i, _ =>
      let j1 := nextSibling nodes i
      let j2 := nextSibling nodes j1
      let j3 := nextSibling nodes j2
      opNary O N (m i) (m j1) [m j2, m j3]
  | 5, _, i, _ =>
      let j1 := nextSibling nodes i
      let j2 := nextSibling nodes j1
      let j3 := nextSibling nodes j2
      let j4 := nextSibling nodes j3
      opNary O N (m i) (m j1) [m j2, m j3, m j4]
  | (ar + 6), _, i, _ =>
      let j1 := nextSibling nodes i
      let j2 := nextSibling nodes j1
      let j3 := nextSibling nodes j2
      let j4 := nextSibling nodes j3
      let r := opNary O N (m i) (m j1) [m j2, m j3, m j4]
      dispatchLoop O N nodes m (ar + 1) r (nextSibling nodes j4) true

/-- `detail::dispatch_op<T,N>(m, nodes, parentIndex)`: runs the arity loop
starting at child `parentIndex - 1` and writes the result into column
`parentIndex` (`r` aliases `m.col(parentIndex)`). -/
def dispatch_op (O : ScalarOps T) (N : NodeType) (m : Buffer T) (nodes : List Node)
    (parentIndex : ℕ) : Buffer T :=
  updCol m parentIndex
    (dispatchLoop O N nodes m (nodes.getD parentIndex default).Arity
      (m parentIndex) (parentIndex - 1) false)

/-- Modelled from the spec: the dispatch-table lookup
`ftable_.TryGet<T>(n.HashValue)` (the file `dispatch_table.hpp` is not among
the sources shown).  Per §4.D of the spec, registration is keyed by the node
kind's stable value and leaves map to an empty optional; the registered
batch kernels are the `detail::op` kernels, of which the sources specialise
Add, Mul, Sub and Div.  The lookup returns the kind whose kernel is
registered under hash `h`. -/
def tryGet (h : ℕ) : Option NodeType :=
  if h = NodeType.Add.val then some NodeType.Add
  else if h = NodeType.Mul.val then some NodeType.Mul
  else if h = NodeType.Sub.val then some NodeType.Sub
  else if h = NodeType.Div.val then some NodeType.Div
  else none

/-- The dataset view: column hash ↦ absolute row index ↦ value
(`dataset.GetValues(hash)` with contiguous row access). -/
abbrev Dataset := ℕ → ℕ → ℚ

/-- The per-node `param` metadata computed by the setup loop of
`GenericInterpreter::Evaluate`:
`param = (parameters && n.Optimize) ? parameters[idx++] : T{n.Value}`,
with the running index `idx` threaded through the node walk. -/
def paramsOfAux (O : ScalarOps T) (params : Option (List T)) :
    List Node → ℕ → List T
  | [], _ => []
  | n :: ns, idx =>
    match params with
    | some ps =>
        if n.Optimize then ps.getD idx O.zero :: paramsOfAux O params ns (idx + 1)
        else O.ofScalar n.Value :: paramsOfAux O params ns idx
    | none => O.ofScalar n.Value :: paramsOfAux O params ns idx

/-- The full per-node `param` list of a call (index `idx` starts at 0). -/
def paramsOf (O : ScalarOps T) (params : Option (List T)) (nodes : List Node) : List T :=
  paramsOfAux O params nodes 0

/-- The working buffer at the start of a call: constant columns are
preloaded with the node's `param` (`m[i].setConstant(param)`); every other
column of the default-initialised buffer is modelled as zero (its initial
content is never read when evaluating a valid tree). -/
def initBuffer (O : ScalarOps T) (nodes : List Node) (ps : List T) : Buffer T :=
  fun i =>
    if (nodes.getD i default).IsConstant then (fun _ => ps.getD i O.zero)
    else (fun _ => O.zero)

/-- One iteration of the per-node loop inside the row-block loop of
`GenericInterpreter::Evaluate`: a variable writes
`param * values.segment(row, remainingRows).cast<T>()` into lanes
`[0, remaining)` of its column; otherwise, if the dispatch table has a
kernel for the node it is invoked; constants (and kernel-less kinds) are
left untouched. -/
def processNode (O : ScalarOps T) (ds : Dataset) (rg : Range) (nodes : List Node)
    (ps : List T) (row remaining : ℕ) (m : Buffer T) (i : ℕ) : Buffer T :=
  let n := nodes.getD i default
  if n.IsVariable then
    updCol m i (fun r =>
      if r < remaining then
        O.mul (ps.getD i O.zero) (O.ofScalar (ds n.HashValue (rg.Start + row + r)))
      else m i r)
  else
    match tryGet n.HashValue with
    | some N => dispatch_op O N m nodes i
    | none => m

/-- The inner `for (i = 0; i < nodes.size(); ++i)` walk of one row block. -/
def processBlock (O : ScalarOps T) (ds : Dataset) (rg : Range) (nodes : List Node)
    (ps : List T) (row remaining : ℕ) (m : Buffer T) : Buffer T :=
  (List.range nodes.length).foldl (processNode O ds rg nodes ps row remaining) m

/-- The row-block loop `for (row = 0; row < numRows; row += S)` of
`GenericInterpreter::Evaluate`, with the output span `res` filled block by
block from the root column (`res.segment(row, remainingRows) =
m.back().segment(0, remainingRows)`).  The first argument is iteration
fuel: the C++ loop performs at most `numRows` iterations since `S ≥ 1`. -/
def blockLoop (O : ScalarOps T) (S : ℕ) (ds : Dataset) (rg : Range) (nodes : List Node)
    (ps : List T) (numRows : ℕ) : ℕ → ℕ → Buffer T → (ℕ → T) → (ℕ → T)
  | 0, _, _, res => res
  | fuel + 1, row, m, res =>
    if row < numRows then
      let remaining := min S (numRows - row)
      let m2 := processBlock O ds rg nodes ps row remaining m
      let res2 := fun k =>
        if row ≤ k ∧ k < row + remaining then m2 (nodes.length - 1) (k - row) else res k
      blockLoop O S ds rg nodes ps numRows fuel (row + S) m2 res2
    else res

/-- The span overload
`Evaluate(tree, dataset, range, Operon::Span<T> result, parameters)`:
computes the per-node `param` metadata, preloads constant columns, runs the
row-block loop with block width `S` (`detail::BatchSize<T>::Value`).  The
output span is the restriction of the returned function to
`[0, range.Size)`. -/
def EvaluateSpan (O : ScalarOps T) (S : ℕ) (tree : List Node) (ds : Dataset)
    (rg : Range) (params : Option (List T)) : ℕ → T :=
  let ps := paramsOf O params tree
  blockLoop O S ds rg tree ps rg.Size rg.Size 0 (initBuffer O tree ps) (fun _ => O.zero)

/-- The vector overload `Evaluate(tree, dataset, range, parameters)`:
allocates `result(range.Size())` and calls the span overload. -/
def Evaluate (O : ScalarOps T) (S : ℕ) (tree : List Node) (ds : Dataset)
    (rg : Range) (params : Option (List T)) : List T :=
  (List.range rg.Size).map (EvaluateSpan O S tree ds rg params)

/-- One tile of the batched overload: evaluate the subrange
`[start + idx·batchSize, min(start + (idx+1)·batchSize, end))` into the
matching subspan of the result. -/
def batchTile (O : ScalarOps T) (S : ℕ) (tree : List Node) (ds : Dataset) (rg : Range)
    (batchSize : ℕ) (params : Option (List T)) (res : ℕ → T) (idx : ℕ) : ℕ → T :=
  let start := rg.Start + idx * batchSize
  let stop := min (start + batchSize) rg.End
  let sub := EvaluateSpan O S tree ds { Start := start, End := stop } params
  fun k =>
    if idx * batchSize ≤ k ∧ k < idx * batchSize + (stop - start) then
      sub (k - idx * batchSize)
    else res k

/-- The batched overload
`Evaluate(tree, dataset, range, batchSize, parameters)`: splits the range
into `range.Size / batchSize` full tiles plus one remainder tile when
`range.Size % batchSize ≠ 0`, and fills the result vector tile by tile. -/
def EvaluateBatched (O : ScalarOps T) (S : ℕ) (tree : List Node) (ds : Dataset)
    (rg : Range) (batchSize : ℕ) (params : Option (List T)) : List T :=
  let n := rg.Size / batchSize
  let m := rg.Size % batchSize
  let indices := List.range (n + if m ≠ 0 then 1 else 0)
  let res := indices.foldl (batchTile O S tree ds rg batchSize params) (fun _ => O.zero)
  (List.range rg.Size).map res

/-- The child-index recurrence `c₀ = p − 1`, `cₖ₊₁ = cₖ − (length[cₖ] + 1)`
(the `nextSibling` chain of `detail::dispatch_op`). -/
def childIdx (nodes : List Node) (p : ℕ) : ℕ → ℕ
  | 0 => p - 1
  | k + 1 => nextSibling nodes (childIdx nodes p k)

/-- Sum of `length + 1` over the children of node `p`. -/
def sumChildren (nodes : List Node) (p : ℕ) : ℕ :=
  ∑ k ∈ Finset.range (nodes.getD p default).Arity,
    ((nodes.getD (childIdx nodes p k) default).Length + 1)

/-- Consistency of the postorder encoding (§3 and §6 of the spec): every
node's subtree fits below it (`length[p] ≤ p`, the prefix-subtree
invariant) and for every inner node the children's `length + 1` sum to the
node's `length`. -/
def Consistent (nodes : List Node) : Prop :=
  ∀ p < nodes.length,
    (nodes.getD p default).Length ≤ p ∧
    (1 ≤ (nodes.getD p default).Arity →
      sumChildren nodes p = (nodes.getD p default).Length)

/-- Interpreter preconditions (§4.F): a consistent postorder encoding where
every node owning a kernel is an inner node (arity ≥ 1). -/
def ValidTree (nodes : List Node) : Prop :=
  Consistent nodes ∧
  ∀ p < nodes.length,
    (tryGet (nodes.getD p default).HashValue).isSome →
      1 ≤ (nodes.getD p default).Arity

/-- Modelled from the spec: the dual scalar `{ a, v[DIMENSION] }` of
`dual.hpp` (file not among the sources shown).  The derivative part is a
lane function; lanes `≥ Dual::DIMENSION` are never read. -/
structure Dual where
  a : ℚ
  v : ℕ → ℚ

/-- Modelled from the spec (§9): the dual instantiation of the kernels —
term-by-term lifts of the real kernels (linearity for add/sub, product rule
for mul, quotient rule for div). -/
def dualOps : ScalarOps Dual where
  zero := { a := 0, v := fun _ => 0 }
  add := fun x y => { a := x.a + y.a, v := fun l => x.v l + y.v l }
  sub := fun x y => { a := x.a - y.a, v := fun l => x.v l - y.v l }
  mul := fun x y => { a := x.a * y.a, v := fun l => x.a * y.v l + x.v l * y.a }
  div := fun x y =>
    { a := x.a / y.a, v := fun l => (x.v l * y.a - x.a * y.v l) / (y.a * y.a) }
  neg := fun x => { a := -x.a, v := fun l => -x.v l }
  inv := fun x => { a := 1 / x.a, v := fun l => -x.v l / (x.a * x.a) }
  ofScalar := fun c => { a := c, v := fun _ => 0 }

/-- The seeding step of `DerivativeCalculator::operator()`: set
`inputs[i].v[i - s] = 1.0` for `i` in the current chunk `[s, r)`.  Lanes
seeded by earlier chunks are left exactly as they are (the source contains
no clearing step). -/
def seedInputs (inputs : List Dual) (s r : ℕ) : List Dual :=
  inputs.mapIdx fun i x =>
    if s ≤ i ∧ i < r then
      { x with v := fun l => if l = i - s then 1 else x.v l }
    else x

/-- The column-major jacobian scatter: for each parameter `i ∈ [s, r)`,
`std::transform(outputs, jac.col(i).data(), jet ↦ jet.v[i - s])`. -/
def scatterCol (outputs : List Dual) (s r : ℕ) (jac : ℕ → ℕ → ℚ) : ℕ → ℕ → ℚ :=
  (List.range (r - s)).foldl
    (fun j t => fun ro c =>
      if c = s + t ∧ ro < outputs.length then (outputs.getD ro dualOps.zero).v t
      else j ro c)
    jac

/-- The row-major jacobian scatter: for each output row `i`,
`std::copy_n(outputs[i].v.data(), r - s, jac.row(i).data() + s)`. -/
def scatterRow (outputs : List Dual) (s r : ℕ) (jac : ℕ → ℕ → ℚ) : ℕ → ℕ → ℚ :=
  (List.range outputs.length).foldl
    (fun j i => fun ro c =>
      if ro = i ∧ s ≤ c ∧ c < r then (outputs.getD i dualOps.zero).v (c - s)
      else j ro c)
    jac

/-- The parameter-chunk sweep `for (s = 0; s < inputs.size(); s += d)` of
`DerivativeCalculator::operator()`, threading the jacobian and the
(persistently seeded) dual inputs.  The first argument is iteration fuel
(at most `P` chunks are swept when `D ≥ 1`); `colMajor` selects which
scatter fills the jacobian. -/
def derivSweep (S D : ℕ) (tree : List Node) (ds : Dataset) (rg : Range) (P : ℕ)
    (colMajor : Bool) : ℕ → ℕ → List Dual → (ℕ → ℕ → ℚ) → (ℕ → ℕ → ℚ)
  | 0, _, _, jac => jac
  | fuel + 1, s, inputs, jac =>
    if s < P then
      let r := min P (s + D)
      let inputs2 := seedInputs inputs s r
      let outputs := Evaluate dualOps S tree ds rg (some inputs2)
      let jac2 := if colMajor then scatterCol outputs s r jac else scatterRow outputs s r jac
      derivSweep S D tree ds rg P colMajor fuel (s + D) inputs2 jac2
    else jac

/-- `DerivativeCalculator::operator()(tree, dataset, coeff, range, jacobian)`
(`forward.hpp`): dual inputs `inputs[i].a = coeff[i]` with zeroed derivative
parts, a zero-filled jacobian of shape `(range.Size, coeff.length)`, then
the chunked sweep with dual dimension `D` and interpreter batch width `S`. -/
def jacobianOf (S D : ℕ) (tree : List Node) (ds : Dataset) (coeff : List ℚ)
    (rg : Range) (colMajor : Bool) : ℕ → ℕ → ℚ :=
  let inputs := coeff.map fun c => ({ a := c, v := fun _ => 0 } : Dual)
  derivSweep S D tree ds rg coeff.length colMajor coeff.length 0 inputs (fun _ _ => 0)

instance (nodes : List Node) : Decidable (Consistent nodes) := by
  unfold Consistent; exact Nat.decidableBallLT _ _

instance (nodes : List Node) : Decidable (ValidTree nodes) := by
  unfold ValidTree; infer_instance

/-- A constant node with the hash assigned by the `Node(NodeType)`
constructor and an explicit value. -/
def constNode (c : ℚ) : Node :=
  { HashValue := NodeType.Constant.val, Value := c, Arity := 0, Length := 0,
    NType := NodeType.Constant, Optimize := false }

/-- A constant node whose `optimize` bit is set (a learnable parameter). -/
def optConstNode (c : ℚ) : Node :=
  { constNode c with Optimize := true }

/-- An inner node of the given kind with the constructor-assigned hash and
explicit arity and length. -/
def innerNode (t : NodeType) (arity length : ℕ) : Node :=
  { HashValue := t.val, Value := 0, Arity := arity, Length := length,
    NType := t, Optimize := false }

/-- The all-zero dataset (no variables are read by the constant-only
scenario trees). -/
def zeroDataset : Dataset := fun _ _ => 0

/-- Spec §8 scenario 5: `T = [c1=10, c2=1, c3=2, c4=3, Sub(arity=4, length=4)]`. -/
def subFoldTree : List Node :=
  [constNode 10, constNode 1, constNode 2, constNode 3, innerNode NodeType.Sub 4 4]

/-- An `Add` node of arity 7 over the constants 1..7 (postorder). -/
def addArity7Tree : List Node :=
  [constNode 1, constNode 2, constNode 3, constNode 4, constNode 5, constNode 6,
   constNode 7, innerNode NodeType.Add 7 7]

/-- An `Add` node of arity 5 over five optimize-marked constants: the output
is the sum of the five parameters. -/
def addOptTree : List Node :=
  [optConstNode 0, optConstNode 0, optConstNode 0, optConstNode 0, optConstNode 0,
   innerNode NodeType.Add 5 5]

/-- The substitution described by the spec (§8, parameter substitution):
replace the value of each optimize-marked leaf by the corresponding
parameter entry, consuming parameters in tree (postorder) order of the
optimize-marked leaves. -/
def substNodesAux (ps : List ℚ) : List Node → ℕ → List Node
  | [], _ => []
  | n :: ns, idx =>
    if n.Optimize && n.Arity == 0 then
      { n with Value := ps.getD idx 0 } :: substNodesAux ps ns (idx + 1)
    else
      n :: substNodesAux ps ns idx

/-- The tree with parameters substituted in place of the optimize-marked
leaf values. -/
def substTree (tree : List Node) (ps : List ℚ) : List Node := substNodesAux ps tree 0

/-- Two node lists of the same shape: equal length and pointwise equal
`Type`, `HashValue`, `Arity` and `Length` (`Value` and `Optimize` are free;
the interpreter reads them only through the `param` metadata). -/
def SameShape (t1 t2 : List Node) : Prop :=
  t1.length = t2.length ∧
  ∀ i, (t1.getD i default).NType = (t2.getD i default).NType ∧
    (t1.getD i default).HashValue = (t2.getD i default).HashValue ∧
    (t1.getD i default).Arity = (t2.getD i default).Arity ∧
    (t1.getD i default).Length = (t2.getD i default).Length

/-- One-row reference evaluation: the node walk of a single block of width 1
over the single absolute row `a`.  Column `j`, lane 0 of this buffer is the
per-row value of node `j`. -/
def pointCols (O : ScalarOps T) (tree : List Node) (ps : List T) (ds : Dataset)
    (a : ℕ) : Buffer T :=
  processBlock O ds { Start := a, End := a + 1 } tree ps 0 1 (initBuffer O tree ps)

/-- Nodes whose column is (re)written inside every row block: variables and
nodes owning a kernel.  All other columns keep their initial content. -/
def WritesCol (nodes : List Node) (j : ℕ) : Prop :=
  (nodes.getD j default).IsVariable = true ∨
    (tryGet (nodes.getD j default).HashValue).isSome = true

/-- Partial sums of the child subtree sizes of node `p`:
`∑_{j<k} (length[c_j] + 1)`.  `sumChildren nodes p` is this sum taken at
`k = arity[p]`. -/
def childSpanSum (nodes : List Node) (p k : ℕ) : ℕ :=
  ∑ j ∈ Finset.range k, ((nodes.getD (childIdx nodes p j) default).Length + 1)

/-- A nested tree `(1 + 2) + 3` in postorder: the root at index 4 has the
children 3 and 2 (an inner child of length 2). -/
def nestedAddTree : List Node :=
  [constNode 1, constNode 2, innerNode NodeType.Add 2 2, constNode 3,
   innerNode NodeType.Add 2 4]

/-- The first `k` iterations of the per-node walk of one row block
(`processBlock` is this at `k = nodes.length`). -/
def processPrefix (O : ScalarOps T) (ds : Dataset) (rg : Range) (nodes : List Node)
    (ps : List T) (row remaining : ℕ) (m : Buffer T) (k : ℕ) : Buffer T :=
  (List.range k).foldl (processNode O ds rg nodes ps row remaining) m

/-- Invariant of the working buffer between row blocks: every column that
no block iteration writes (neither a variable nor a kernel owner) still
holds its initial content. -/
def EntryInv (O : ScalarOps T) (nodes : List Node) (ps : List T) (m : Buffer T) : Prop :=
  ∀ j, ¬ WritesCol nodes j → m j = initBuffer O nodes ps j

/-! ### Claim theorems -/

/-- C8: the claim states that Constant, Variable and Dynamic nodes are all
constructed with arity 0 (leaves).  Evaluating the constructor at the
failing input: `Node(NodeType::Dynamic)` receives arity 1 (hence is not a
leaf), because the unary branch condition `Type < NodeType::Constant` also
captures `Dynamic` even though its comment documents the branch as
`Abs … Square`; `Constant` and `Variable` do get arity 0. -/
theorem construct_dynamic_arity_one :
    (Node.construct NodeType.Dynamic NodeType.Dynamic.val).Arity = 1 ∧
    (Node.construct NodeType.Dynamic NodeType.Dynamic.val).IsLeaf = false ∧
    (Node.construct NodeType.Constant NodeType.Constant.val).Arity = 0 ∧
    (Node.construct NodeType.Constant NodeType.Constant.val).IsLeaf = true ∧
    (Node.construct NodeType.Variable NodeType.Variable.val).Arity = 0 ∧
    (Node.construct NodeType.Variable NodeType.Variable.val).IsLeaf = true := by
  decide

/-- C9 counterexample: `Fmax` is not classified commutative by the code —
`IsCommutative` tests `Type < NodeType::Sub`, which holds only for Add and
Mul. -/
theorem fmax_not_commutative :
    (Node.construct NodeType.Fmax NodeType.Fmax.val).IsCommutative = false := by
  decide

/-- C9 (amended): for every node, `IsCommutative()` returns true exactly
when the node's kind is Add or Mul (`Fmax` and `Fmin` are not classified
commutative). -/
theorem isCommutative_iff_add_or_mul (n : Node) :
    n.IsCommutative = true ↔ (n.NType = NodeType.Add ∨ n.NType = NodeType.Mul) := by
  rcases n with ⟨h, v, ar, l, t, o⟩
  cases t <;> simp [Node.IsCommutative, NodeType.val]

/-- C10: `GetIndex` returns the bit position of a kind's single set bit
(`t.val = 2 ^ GetIndex t` with `GetIndex t < 31`), is injective on the 31
node kinds, and attains every stable index `0 … 30`. -/
theorem getIndex_bit_position :
    (∀ t : NodeType, t.val = 2 ^ NodeTypes.GetIndex t ∧ NodeTypes.GetIndex t < 31) ∧
    (∀ t1 t2 : NodeType, NodeTypes.GetIndex t1 = NodeTypes.GetIndex t2 → t1 = t2) ∧
    (∀ k : Fin 31, ∃ t : NodeType, NodeTypes.GetIndex t = k.val) := by
  decide

/-- Witness for `getIndex_bit_position` at concrete inputs. -/
theorem getIndex_bit_position_witness :
    NodeType.Aq = NodeType.Aq ∧ ∃ t : NodeType, NodeTypes.GetIndex t = (30 : Fin 31).val :=
  ⟨getIndex_bit_position.2.1 NodeType.Aq NodeType.Aq rfl,
   getIndex_bit_position.2.2 (30 : Fin 31)⟩

/-- C1: evaluating an `Add` node of arity 7 over the constants 1..7.  The
claim (and the spec) say the variadic fold sums all 7 children (= 28); the
code returns 3, because after the first unrolled chunk of five children the
`default:` case hands over to the arity-2 kernel, which overwrites the
accumulated column with the sum of the two remaining children
(`continued` is consulted only in the arity-1 case). -/
theorem addArity7_evaluates_to_three :
    Evaluate ratOps BATCHSIZE addArity7Tree zeroDataset { Start := 0, End := 1 } none = [3] ∧
    (3 : ℚ) ≠ 1 + 2 + 3 + 4 + 5 + 6 + 7 := by
  with_unfolding_all decide

/-- C2: the derivative sweep never clears the seed lanes of earlier chunks,
so with dual dimension 4 and 5 parameters feeding an arity-5 `Add`, the
lane-0 derivative of the second chunk accumulates ∂/∂c₀ + ∂/∂c₄ and the
Jacobian entry `[0, 4]` becomes 2 (in either storage order), while the true
derivative of the output with respect to `coeff[4]` — the slope of the
primal output in that coefficient — is 1.  Entry `[0, 0]`, filled by the
first chunk, is correct. -/
theorem jacobian_chunk_seed_not_cleared :
    jacobianOf 4 4 addOptTree zeroDataset [1, 1, 1, 1, 1] { Start := 0, End := 1 } true 0 4 = 2 ∧
    jacobianOf 4 4 addOptTree zeroDataset [1, 1, 1, 1, 1] { Start := 0, End := 1 } false 0 4 = 2 ∧
    jacobianOf 4 4 addOptTree zeroDataset [1, 1, 1, 1, 1] { Start := 0, End := 1 } true 0 0 = 1 ∧
    EvaluateSpan ratOps 4 addOptTree zeroDataset { Start := 0, End := 1 } (some [1, 1, 1, 1, 2]) 0 -
      EvaluateSpan ratOps 4 addOptTree zeroDataset { Start := 0, End := 1 } (some [1, 1, 1, 1, 1]) 0 = 1 := by
  with_unfolding_all decide

/-- C5 counterexample: spec §8 scenario 5 claims
`[c1=10, c2=1, c3=2, c4=3, Sub(arity=4)]` evaluates to `10 − (1+2+3) = 4`
on every row; the code evaluates it to `3 − (2 + 1 + 10) = −10` (the fold
starts at the child at index `parent − 1`, the last child in postorder). -/
theorem subFold_scenario_not_four :
    Evaluate ratOps BATCHSIZE subFoldTree zeroDataset { Start := 0, End := 1 } none = [-10] ∧
    ((-10 : ℚ) ≠ 4) := by
  with_unfolding_all decide

/-- C5 (amended): for a `Sub` node of arity `n` with `2 ≤ n ≤ 5` (arities
above 5 additionally hit the chunking defect of C1), the kernel computes
the child at index `p − 1` — the last child in the postorder array — minus
the sum of the remaining children; for `Div`, that child divided by the
product of the remaining children.  On spec scenario 5 this yields
`3 − (2 + 1 + 10) = −10` on every row, not 4. -/
theorem dispatch_sub_div_first_is_last_child (nodes : List Node) (m : Buffer ℚ)
    (p lane : ℕ) (h2 : 2 ≤ (nodes.getD p default).Arity)
    (h5 : (nodes.getD p default).Arity ≤ 5) :
    dispatch_op ratOps NodeType.Sub m nodes p p lane =
      m (childIdx nodes p 0) lane -
        ∑ k ∈ Finset.Ico 1 (nodes.getD p default).Arity, m (childIdx nodes p k) lane ∧
    dispatch_op ratOps NodeType.Div m nodes p p lane =
      m (childIdx nodes p 0) lane /
        ∏ k ∈ Finset.Ico 1 (nodes.getD p default).Arity, m (childIdx nodes p k) lane := by
  have ha : (nodes.getD p default).Arity = 2 ∨ (nodes.getD p default).Arity = 3 ∨
      (nodes.getD p default).Arity = 4 ∨ (nodes.getD p default).Arity = 5 := by omega
  have hc0 : childIdx nodes p 0 = p - 1 := rfl
  have hc1 : childIdx nodes p 1 = nextSibling nodes (p - 1) := rfl
  have hc2 : childIdx nodes p 2 = nextSibling nodes (nextSibling nodes (p - 1)) := rfl
  have hc3 : childIdx nodes p 3 =
      nextSibling nodes (nextSibling nodes (nextSibling nodes (p - 1))) := rfl
  have hc4 : childIdx nodes p 4 =
      nextSibling nodes (nextSibling nodes (nextSibling nodes (nextSibling nodes (p - 1)))) := rfl
  rcases ha with h | h | h | h <;>
    constructor <;>
      simp only [dispatch_op, h, dispatchLoop, updCol, opNary, foldPack, ratOps,
        List.map_cons, List.map_nil, if_pos rfl] <;>
      simp [Finset.sum_Ico_eq_sum_range, Finset.prod_Ico_eq_prod_range,
        Finset.sum_range_succ, Finset.prod_range_succ, hc0, hc1, hc2, hc3, hc4] <;>
      ring

/-- Witness for `dispatch_sub_div_first_is_last_child` on spec scenario 5's
tree with the buffer holding column index `j` in column `j`. -/
theorem dispatch_sub_div_first_is_last_child_witness :
    dispatch_op ratOps NodeType.Sub (fun j _ => (j : ℚ)) subFoldTree 4 4 0 =
      (fun j _ => (j : ℚ)) (childIdx subFoldTree 4 0) 0 -
        ∑ k ∈ Finset.Ico 1 (subFoldTree.getD 4 default).Arity,
          (fun j _ => (j : ℚ)) (childIdx subFoldTree 4 k) 0 :=
  (dispatch_sub_div_first_is_last_child subFoldTree (fun j _ => (j : ℚ)) 4 0
    (by decide) (by decide)).1

theorem childSpanSum_add_le (nodes : List Node) (p : ℕ) (k : ℕ) :
    ∀ d, childSpanSum nodes p k + d ≤ childSpanSum nodes p (k + d) := by
  intro d
  induction d with
  | zero => simp
  | succ d ih =>
    have h := Finset.sum_range_succ
      (fun j => ((nodes.getD (childIdx nodes p j) default).Length + 1)) (k + d)
    have h2 : childSpanSum nodes p (k + (d + 1)) =
        childSpanSum nodes p (k + d) +
          ((nodes.getD (childIdx nodes p (k + d)) default).Length + 1) := by
      simpa [childSpanSum, Nat.add_assoc] using h
    omega

theorem childIdx_closed_form (nodes : List Node) (p : ℕ) :
    ∀ k, childIdx nodes p k = p - 1 - childSpanSum nodes p k := by
  intro k
  induction k with
  | zero => simp [childIdx, childSpanSum]
  | succ k ih =>
    have hs : childSpanSum nodes p (k + 1) =
        childSpanSum nodes p k +
          ((nodes.getD (childIdx nodes p k) default).Length + 1) := by
      simpa [childSpanSum] using Finset.sum_range_succ
        (fun j => ((nodes.getD (childIdx nodes p j) default).Length + 1)) k
    rw [childIdx, nextSibling, hs]
    omega

/-- C6: in a consistent tree, the sibling recurrence starting at `p − 1`
produces, for each inner node `p`, child indices all lying inside the
subtree interval `[p − length[p], p − 1]`, and pairwise distinct. -/
theorem sibling_recurrence_bounds (nodes : List Node) (p : ℕ)
    (hcons : Consistent nodes) (hp : p < nodes.length)
    (ha : 1 ≤ (nodes.getD p default).Arity) :
    (∀ k < (nodes.getD p default).Arity,
        p - (nodes.getD p default).Length ≤ childIdx nodes p k ∧
        childIdx nodes p k ≤ p - 1) ∧
    (∀ k1 < (nodes.getD p default).Arity, ∀ k2 < (nodes.getD p default).Arity,
        k1 ≠ k2 → childIdx nodes p k1 ≠ childIdx nodes p k2) := by
  obtain ⟨hL, hsum⟩ := hcons p hp
  have hS : childSpanSum nodes p (nodes.getD p default).Arity =
      (nodes.getD p default).Length := hsum ha
  have hbound : ∀ k < (nodes.getD p default).Arity,
      childSpanSum nodes p k + ((nodes.getD p default).Arity - k) ≤
        (nodes.getD p default).Length := by
    intro k hk
    have := childSpanSum_add_le nodes p k ((nodes.getD p default).Arity - k)
    rw [Nat.add_sub_cancel' (Nat.le_of_lt hk)] at this
    omega
  have hmono : ∀ k1 k2, k1 < k2 → k2 ≤ (nodes.getD p default).Arity →
      childSpanSum nodes p k1 < childSpanSum nodes p k2 := by
    intro k1 k2 h12 h2A
    have := childSpanSum_add_le nodes p k1 (k2 - k1)
    rw [Nat.add_sub_cancel' (Nat.le_of_lt h12)] at this
    omega
  constructor
  · intro k hk
    have hck := childIdx_closed_form nodes p k
    have hb := hbound k hk
    constructor <;> omega
  · have key : ∀ k1 k2, k1 < k2 → k2 < (nodes.getD p default).Arity →
        childIdx nodes p k1 ≠ childIdx nodes p k2 := by
      intro k1 k2 h12 h2A
      have h1 := childIdx_closed_form nodes p k1
      have h2 := childIdx_closed_form nodes p k2
      have hm := hmono k1 k2 h12 (Nat.le_of_lt h2A)
      have hb := hbound k2 h2A
      omega
    intro k1 hk1 k2 hk2 hne
    rcases hne.lt_or_lt with h | h
    · exact key k1 k2 h hk2
    · exact (key k2 k1 h hk1).symm

/-- Witness for `sibling_recurrence_bounds` on the nested tree
`(1 + 2) + 3`, root at index 4 with children at indices 3 and 2. -/
theorem sibling_recurrence_bounds_witness :
    (4 - (nestedAddTree.getD 4 default).Length ≤ childIdx nestedAddTree 4 1 ∧
      childIdx nestedAddTree 4 1 ≤ 4 - 1) ∧
    childIdx nestedAddTree 4 0 ≠ childIdx nestedAddTree 4 1 :=
  ⟨(sibling_recurrence_bounds nestedAddTree 4 (by decide) (by decide) (by decide)).1
      1 (by decide),
   (sibling_recurrence_bounds nestedAddTree 4 (by decide) (by decide) (by decide)).2
      0 (by decide) 1 (by decide) (by decide)⟩

theorem updCol_self (m : Buffer T) (i : ℕ) (c : Col T) : updCol m i c i = c := by
  simp [updCol]

theorem updCol_ne (m : Buffer T) (i j : ℕ) (c : Col T) (h : j ≠ i) :
    updCol m i c j = m j := by
  simp [updCol, h]

theorem opUnary_lane (O : ScalarOps T) (N : NodeType) (a1 a2 : Col T) (l1 l2 : ℕ)
    (ha : a1 l1 = a2 l2) : opUnary O N a1 l1 = opUnary O N a2 l2 := by
  cases N <;> simp [opUnary, ha]

theorem opNary_lane (O : ScalarOps T) (N : NodeType) (a1 b1 a2 b2 : Col T)
    (rest1 rest2 : List (Col T)) (l1 l2 : ℕ) (ha : a1 l1 = a2 l2) (hb : b1 l1 = b2 l2)
    (hrest : rest1.map (fun c => c l1) = rest2.map (fun c => c l2)) :
    opNary O N a1 b1 rest1 l1 = opNary O N a2 b2 rest2 l2 := by
  cases N <;> simp [opNary, ha, hb, hrest]

theorem dispatchLoop_shape_congr (O : ScalarOps T) (N : NodeType) (t1 t2 : List Node)
    (hlen : ∀ i, (t1.getD i default).Length = (t2.getD i default).Length)
    (m : Buffer T) :
    ∀ ar r i c, dispatchLoop O N t1 m ar r i c = dispatchLoop O N t2 m ar r i c := by
  have hns : ∀ i, nextSibling t1 i = nextSibling t2 i := by
    intro i; unfold nextSibling; rw [hlen]
  intro ar
  induction ar using Nat.strong_induction_on with
  | _ ar ih =>
    intro r i c
    match ar with
    | 0 => rfl
    | 1 => rfl
    | 2 => simp only [dispatchLoop, hns]
    | 3 => simp only [dispatchLoop, hns]
    | 4 => simp only [dispatchLoop, hns]
    | 5 => simp only [dispatchLoop, hns]
    | (a + 6) =>
      simp only [dispatchLoop, hns]
      exact ih (a + 1) (by omega) _ _ _

theorem dispatch_op_shape_congr (O : ScalarOps T) (N : NodeType) (t1 t2 : List Node)
    (hlen : ∀ i, (t1.getD i default).Length = (t2.getD i default).Length)
    (hA : ∀ i, (t1.getD i default).Arity = (t2.getD i default).Arity)
    (m : Buffer T) (i : ℕ) :
    dispatch_op O N m t1 i = dispatch_op O N m t2 i := by
  unfold dispatch_op
  rw [hA i, dispatchLoop_shape_congr O N t1 t2 hlen m]

theorem processNode_eq (O : ScalarOps T) (ds : Dataset) (rg : Range) (nodes : List Node)
    (ps : List T) (row remaining : ℕ) (m : Buffer T) (i : ℕ) :
    processNode O ds rg nodes ps row remaining m i =
      if (nodes.getD i default).IsVariable = true then
        updCol m i (fun r =>
          if r < remaining then
            O.mul (ps.getD i O.zero)
              (O.ofScalar (ds (nodes.getD i default).HashValue (rg.Start + row + r)))
          else m i r)
      else
        match tryGet (nodes.getD i default).HashValue with
        | some N => dispatch_op O N m nodes i
        | none => m := rfl

theorem processNode_shape_congr (O : ScalarOps T) (ds : Dataset) (rg : Range)
    (t1 t2 : List Node) (hsh : SameShape t1 t2) (ps : List T) (row remaining : ℕ)
    (m : Buffer T) (i : ℕ) :
    processNode O ds rg t1 ps row remaining m i =
      processNode O ds rg t2 ps row remaining m i := by
  obtain ⟨hlen, hproj⟩ := hsh
  have hT := fun j => (hproj j).1
  have hH := fun j => (hproj j).2.1
  have hA := fun j => (hproj j).2.2.1
  have hL := fun j => (hproj j).2.2.2
  have hvar : (t1.getD i default).IsVariable = (t2.getD i default).IsVariable := by
    unfold Node.IsVariable
    rw [hT i]
  rw [processNode_eq, processNode_eq, hvar, hH i]
  by_cases hv : (t2.getD i default).IsVariable = true
  · simp only [if_pos hv]
  · simp only [if_neg hv]
    cases htg : tryGet (t2.getD i default).HashValue with
    | none => rfl
    | some N => exact dispatch_op_shape_congr O N t1 t2 hL hA m i

theorem processPrefix_shape_congr (O : ScalarOps T) (ds : Dataset) (rg : Range)
    (t1 t2 : List Node) (hsh : SameShape t1 t2) (ps : List T) (row remaining : ℕ) :
    ∀ l : List ℕ, ∀ m : Buffer T,
      l.foldl (processNode O ds rg t1 ps row remaining) m =
        l.foldl (processNode O ds rg t2 ps row remaining) m := by
  intro l
  induction l with
  | nil => intro m; rfl
  | cons x xs ih =>
    intro m
    simp only [List.foldl_cons]
    rw [processNode_shape_congr O ds rg t1 t2 hsh ps row remaining m x]
    exact ih _

theorem initBuffer_shape_congr (O : ScalarOps T) (t1 t2 : List Node) (ps : List T)
    (hsh : SameShape t1 t2) : initBuffer O t1 ps = initBuffer O t2 ps := by
  funext i
  have hT := (hsh.2 i).1
  unfold initBuffer Node.IsConstant
  rw [hT]

theorem blockLoop_shape_congr (O : ScalarOps T) (S : ℕ) (ds : Dataset) (rg : Range)
    (t1 t2 : List Node) (hsh : SameShape t1 t2) (ps : List T) (numRows : ℕ) :
    ∀ fuel row m res,
      blockLoop O S ds rg t1 ps numRows fuel row m res =
        blockLoop O S ds rg t2 ps numRows fuel row m res := by
  intro fuel
  induction fuel with
  | zero => intro row m res; rfl
  | succ fuel ih =>
    intro row m res
    simp only [blockLoop]
    by_cases hrow : row < numRows
    · simp only [if_pos hrow]
      have hblock : processBlock O ds rg t1 ps row (min S (numRows - row)) m =
          processBlock O ds rg t2 ps row (min S (numRows - row)) m := by
        unfold processBlock
        rw [hsh.1]
        exact processPrefix_shape_congr O ds rg t1 t2 hsh ps row _ _ m
      rw [hblock, hsh.1]
      exact ih _ _ _
    · simp only [if_neg hrow]

theorem paramsOfAux_none_idx (O : ScalarOps T) :
    ∀ (tree : List Node) (idx1 idx2 : ℕ),
      paramsOfAux O none tree idx1 = paramsOfAux O none tree idx2 := by
  intro tree
  induction tree with
  | nil => intro idx1 idx2; rfl
  | cons n ns ih =>
    intro idx1 idx2
    simp only [paramsOfAux]
    rw [ih idx1 idx2]

/-- The parameter metadata of a call with parameters equals the metadata of
the substituted tree evaluated without parameters, provided the optimize
bit is set only on leaves. -/
theorem paramsOfAux_subst (ps : List ℚ) :
    ∀ (tree : List Node) (idx : ℕ),
      (∀ n ∈ tree, n.Optimize = true → n.Arity = 0) →
      paramsOfAux ratOps (some ps) tree idx =
        paramsOfAux ratOps none (substNodesAux ps tree idx) idx := by
  intro tree
  induction tree with
  | nil => intro idx h; rfl
  | cons n ns ih =>
    intro idx h
    have hn := h n (List.mem_cons_self n ns)
    have hns : ∀ x ∈ ns, x.Optimize = true → x.Arity = 0 := by
      intro x hx; exact h x (List.mem_cons_of_mem n hx)
    by_cases ho : n.Optimize = true
    · have hza : n.Arity = 0 := hn ho
      have hcond : (n.Optimize && n.Arity == 0) = true := by rw [ho, hza]; rfl
      have hsub : substNodesAux ps (n :: ns) idx =
          { n with Value := ps.getD idx 0 } :: substNodesAux ps ns (idx + 1) := by
        simp [substNodesAux, hcond]
      rw [hsub]
      simp only [paramsOfAux, ho, ite_true]
      congr 1
      rw [ih (idx + 1) hns]
      exact paramsOfAux_none_idx ratOps _ (idx + 1) idx
    · have ho2 : n.Optimize = false := by
        cases hop : n.Optimize
        · rfl
        · exact absurd hop ho
      have hcond : (n.Optimize && n.Arity == 0) = false := by rw [ho2]; rfl
      have hsub : substNodesAux ps (n :: ns) idx = n :: substNodesAux ps ns idx := by
        simp [substNodesAux, hcond]
      rw [hsub]
      simp only [paramsOfAux, ho2, Bool.false_eq_true, ite_false]
      congr 1
      exact ih idx hns

theorem sameShape_cons (n h2 : Node) (ns rest : List Node)
    (e1 : h2.NType = n.NType) (e2 : h2.HashValue = n.HashValue)
    (e3 : h2.Arity = n.Arity) (e4 : h2.Length = n.Length)
    (htail : SameShape ns rest) : SameShape (n :: ns) (h2 :: rest) := by
  obtain ⟨hl, hp⟩ := htail
  refine ⟨by simp [hl], ?_⟩
  intro i
  cases i with
  | zero => simp [List.getD_cons_zero, e1, e2, e3, e4]
  | succ i => simpa [List.getD_cons_succ] using hp i

/-- Substitution preserves the shape of the tree. -/
theorem substNodesAux_shape (ps : List ℚ) :
    ∀ (tree : List Node) (idx : ℕ), SameShape tree (substNodesAux ps tree idx) := by
  intro tree
  induction tree with
  | nil => intro idx; exact ⟨rfl, fun i => ⟨rfl, rfl, rfl, rfl⟩⟩
  | cons n ns ih =>
    intro idx
    by_cases hc : (n.Optimize && n.Arity == 0) = true
    · have hsub : substNodesAux ps (n :: ns) idx =
          { n with Value := ps.getD idx 0 } :: substNodesAux ps ns (idx + 1) := by
        simp [substNodesAux, hc]
      rw [hsub]
      exact sameShape_cons _ _ _ _ rfl rfl rfl rfl (ih (idx + 1))
    · have hsub : substNodesAux ps (n :: ns) idx = n :: substNodesAux ps ns idx := by
        simp [substNodesAux, hc]
      rw [hsub]
      exact sameShape_cons _ _ _ _ rfl rfl rfl rfl (ih idx)

/-- C3: with parameters supplied, `Evaluate` produces the same output as
`Evaluate` without parameters on the tree in which each optimize-marked
leaf's value is replaced by the corresponding parameter entry (parameters
are consumed in postorder order of the optimize-marked leaves).  The
validity hypothesis is the spec's tree-validation rule that the optimize
bit is set only on leaves. -/
theorem evaluate_param_substitution (S : ℕ) (tree : List Node) (ds : Dataset)
    (rg : Range) (ps : List ℚ)
    (hopt : ∀ n ∈ tree, n.Optimize = true → n.Arity = 0) :
    Evaluate ratOps S tree ds rg (some ps) =
      Evaluate ratOps S (substTree tree ps) ds rg none := by
  have hsh : SameShape tree (substTree tree ps) := substNodesAux_shape ps tree 0
  have hps : paramsOf ratOps (some ps) tree =
      paramsOf ratOps none (substTree tree ps) := paramsOfAux_subst ps tree 0 hopt
  have hspan : EvaluateSpan ratOps S tree ds rg (some ps) =
      EvaluateSpan ratOps S (substTree tree ps) ds rg none := by
    unfold EvaluateSpan
    dsimp only
    rw [hps, initBuffer_shape_congr ratOps tree (substTree tree ps) _ hsh]
    exact blockLoop_shape_congr ratOps S ds rg tree (substTree tree ps) hsh _ _ _ _ _ _
  unfold Evaluate
  rw [hspan]

/-- Witness for `evaluate_param_substitution`: five optimize-marked
constants under an `Add` with parameters 1..5. -/
theorem evaluate_param_substitution_witness :
    Evaluate ratOps 64 addOptTree zeroDataset { Start := 0, End := 2 } (some [1, 2, 3, 4, 5]) =
      Evaluate ratOps 64 (substTree addOptTree [1, 2, 3, 4, 5]) zeroDataset
        { Start := 0, End := 2 } none :=
  evaluate_param_substitution 64 addOptTree zeroDataset { Start := 0, End := 2 }
    [1, 2, 3, 4, 5] (by decide)

theorem processNode_ne (O : ScalarOps T) (ds : Dataset) (rg : Range) (nodes : List Node)
    (ps : List T) (row remaining : ℕ) (m : Buffer T) (i j : ℕ) (h : j ≠ i) :
    processNode O ds rg nodes ps row remaining m i j = m j := by
  rw [processNode_eq]
  by_cases hv : (nodes.getD i default).IsVariable = true
  · rw [if_pos hv]
    exact updCol_ne m i j _ h
  · rw [if_neg hv]
    cases htg : tryGet (nodes.getD i default).HashValue with
    | none => rfl
    | some N =>
      unfold dispatch_op
      exact updCol_ne m i j _ h

theorem processNode_not_writes (O : ScalarOps T) (ds : Dataset) (rg : Range)
    (nodes : List Node) (ps : List T) (row remaining : ℕ) (m : Buffer T) (j : ℕ)
    (h : ¬ WritesCol nodes j) :
    processNode O ds rg nodes ps row remaining m j = m := by
  unfold WritesCol at h
  push_neg at h
  obtain ⟨h1, h2⟩ := h
  rw [processNode_eq, if_neg h1]
  cases htg : tryGet (nodes.getD j default).HashValue with
  | none => rfl
  | some N => exact absurd (by rw [htg]; rfl) h2

theorem processPrefix_zero (O : ScalarOps T) (ds : Dataset) (rg : Range)
    (nodes : List Node) (ps : List T) (row remaining : ℕ) (m : Buffer T) :
    processPrefix O ds rg nodes ps row remaining m 0 = m := rfl

theorem processPrefix_succ (O : ScalarOps T) (ds : Dataset) (rg : Range)
    (nodes : List Node) (ps : List T) (row remaining : ℕ) (m : Buffer T) (k : ℕ) :
    processPrefix O ds rg nodes ps row remaining m (k + 1) =
      processNode O ds rg nodes ps row remaining
        (processPrefix O ds rg nodes ps row remaining m k) k := by
  unfold processPrefix
  rw [List.range_succ, List.foldl_append]
  rfl

theorem processPrefix_ge (O : ScalarOps T) (ds : Dataset) (rg : Range)
    (nodes : List Node) (ps : List T) (row remaining : ℕ) :
    ∀ (k : ℕ) (m : Buffer T) (j : ℕ), k ≤ j →
      processPrefix O ds rg nodes ps row remaining m k j = m j := by
  intro k
  induction k with
  | zero => intro m j h; rfl
  | succ k ih =>
    intro m j h
    rw [processPrefix_succ, processNode_ne O ds rg nodes ps row remaining _ k j (by omega)]
    exact ih m j (by omega)

theorem processPrefix_entryInv (O : ScalarOps T) (ds : Dataset) (rg : Range)
    (nodes : List Node) (ps : List T) (row remaining : ℕ) :
    ∀ (k : ℕ) (m : Buffer T), EntryInv O nodes ps m →
      EntryInv O nodes ps (processPrefix O ds rg nodes ps row remaining m k) := by
  intro k
  induction k with
  | zero => intro m h; exact h
  | succ k ih =>
    intro m h j hj
    rw [processPrefix_succ]
    by_cases hjk : j = k
    · subst hjk
      rw [processNode_not_writes O ds rg nodes ps row remaining _ j hj]
      exact ih m h j hj
    · rw [processNode_ne O ds rg nodes ps row remaining _ k j hjk]
      exact ih m h j hj

theorem consistent_kernel_index_pos (nodes : List Node) (hcons : Consistent nodes)
    (p : ℕ) (hp : p < nodes.length) (ha : 1 ≤ (nodes.getD p default).Arity) : 1 ≤ p := by
  by_contra hcon
  have hp0 : p = 0 := by omega
  subst hp0
  obtain ⟨hL, hsum⟩ := hcons 0 hp
  have hs := hsum ha
  have hlow : (nodes.getD 0 default).Arity ≤ sumChildren nodes 0 := by
    unfold sumChildren
    calc (nodes.getD 0 default).Arity
        = ∑ _k ∈ Finset.range (nodes.getD 0 default).Arity, 1 := by simp
      _ ≤ ∑ k ∈ Finset.range (nodes.getD 0 default).Arity,
            ((nodes.getD (childIdx nodes 0 k) default).Length + 1) :=
          Finset.sum_le_sum (fun k _ => by omega)
  omega

theorem dispatchLoop_lane_congr (O : ScalarOps T) (N : NodeType) (nodes : List Node)
    (m1 m2 : Buffer T) (l1 l2 : ℕ) :
    ∀ (ar : ℕ) (i : ℕ) (c : Bool) (r1 r2 : Col T), 1 ≤ ar →
      (∀ j, j ≤ i → m1 j l1 = m2 j l2) →
      (c = true → r1 l1 = r2 l2) →
      dispatchLoop O N nodes m1 ar r1 i c l1 = dispatchLoop O N nodes m2 ar r2 i c l2 := by
  have hsub : ∀ x, nextSibling nodes x ≤ x := fun x => Nat.sub_le _ _
  intro ar
  induction ar using Nat.strong_induction_on with
  | _ ar ih =>
    intro i c r1 r2 har hm hr
    match ar, har with
    | 1, _ =>
      cases c with
      | true =>
        simp only [dispatchLoop, if_pos rfl]
        exact opNary_lane O N _ _ _ _ _ _ l1 l2 (hr rfl) (hm i le_rfl) rfl
      | false =>
        simp only [dispatchLoop, Bool.false_eq_true, if_neg, not_false_eq_true]
        exact opUnary_lane O N _ _ l1 l2 (hm i le_rfl)
    | 2, _ =>
      simp only [dispatchLoop]
      exact opNary_lane O N _ _ _ _ _ _ l1 l2 (hm i le_rfl) (hm _ (hsub i)) rfl
    | 3, _ =>
      simp only [dispatchLoop]
      refine opNary_lane O N _ _ _ _ _ _ l1 l2 (hm i le_rfl) (hm _ (hsub i)) ?_
      simp only [List.map_cons, List.map_nil]
      rw [hm _ (le_trans (hsub _) (hsub i))]
    | 4, _ =>
      simp only [dispatchLoop]
      refine opNary_lane O N _ _ _ _ _ _ l1 l2 (hm i le_rfl) (hm _ (hsub i)) ?_
      simp only [List.map_cons, List.map_nil]
      rw [hm _ (le_trans (hsub _) (hsub i)),
          hm _ (le_trans (hsub _) (le_trans (hsub _) (hsub i)))]
    | 5, _ =>
      simp only [dispatchLoop]
      refine opNary_lane O N _ _ _ _ _ _ l1 l2 (hm i le_rfl) (hm _ (hsub i)) ?_
      simp only [List.map_cons, List.map_nil]
      rw [hm _ (le_trans (hsub _) (hsub i)),
          hm _ (le_trans (hsub _) (le_trans (hsub _) (hsub i))),
          hm _ (le_trans (hsub _) (le_trans (hsub _) (le_trans (hsub _) (hsub i))))]
    | (a + 6), _ =>
      simp only [dispatchLoop]
      have hj4 : nextSibling nodes (nextSibling nodes (nextSibling nodes
          (nextSibling nodes i))) ≤ i :=
        le_trans (hsub _) (le_trans (hsub _) (le_trans (hsub _) (hsub i)))
      refine ih (a + 1) (by omega) _ true _ _ (by omega)
        (fun j hj => hm j (le_trans hj (le_trans (hsub _) hj4))) ?_
      intro _
      refine opNary_lane O N _ _ _ _ _ _ l1 l2 (hm i le_rfl) (hm _ (hsub i)) ?_
      simp only [List.map_cons, List.map_nil]
      rw [hm _ (le_trans (hsub _) (hsub i)),
          hm _ (le_trans (hsub _) (le_trans (hsub _) (hsub i))),
          hm _ hj4]

theorem initBuffer_lane (O : ScalarOps T) (nodes : List Node) (ps : List T)
    (j r1 r2 : ℕ) : initBuffer O nodes ps j r1 = initBuffer O nodes ps j r2 := by
  unfold initBuffer
  split <;> rfl

theorem processPrefix_lane_point (O : ScalarOps T) (ds : Dataset) (rg : Range)
    (nodes : List Node) (ps : List T) (row remaining r : ℕ) (hr : r < remaining)
    (hvalid : ValidTree nodes) (m : Buffer T) (hinv : EntryInv O nodes ps m) :
    ∀ i, i ≤ nodes.length → ∀ j, j < i →
      processPrefix O ds rg nodes ps row remaining m i j r =
        processPrefix O ds { Start := rg.Start + row + r, End := rg.Start + row + r + 1 }
          nodes ps 0 1 (initBuffer O nodes ps) i j 0 := by
  intro i
  induction i with
  | zero => intro _ j hj; exact absurd hj (Nat.not_lt_zero j)
  | succ i ih =>
    intro hi j hj
    rw [processPrefix_succ, processPrefix_succ]
    rcases Nat.lt_or_ge j i with hji | hji
    · rw [processNode_ne O ds rg nodes ps row remaining _ i j (by omega),
          processNode_ne O ds _ nodes ps 0 1 _ i j (by omega)]
      exact ih (by omega) j hji
    · have hj_eq : j = i := by omega
      subst hj_eq
      by_cases hv : (nodes.getD j default).IsVariable = true
      · rw [processNode_eq, processNode_eq, if_pos hv, if_pos hv, updCol_self, updCol_self]
        rw [if_pos hr, if_pos (by omega : (0 : ℕ) < 1)]
        simp
      · cases htg : tryGet (nodes.getD j default).HashValue with
        | none =>
          have hW : ¬ WritesCol nodes j := by
            unfold WritesCol
            push_neg
            exact ⟨hv, by rw [htg]; simp⟩
          rw [processNode_not_writes O ds rg nodes ps row remaining _ j hW,
              processNode_not_writes O ds _ nodes ps 0 1 _ j hW,
              processPrefix_ge O ds rg nodes ps row remaining j _ j le_rfl,
              processPrefix_ge O ds _ nodes ps 0 1 j _ j le_rfl]
          rw [hinv j hW]
          exact initBuffer_lane O nodes ps j r 0
        | some N =>
          have hisSome : (tryGet (nodes.getD j default).HashValue).isSome = true := by
            rw [htg]; rfl
          have hj_lt : j < nodes.length := by omega
          have har : 1 ≤ (nodes.getD j default).Arity := hvalid.2 j hj_lt hisSome
          have hjpos : 1 ≤ j := consistent_kernel_index_pos nodes hvalid.1 j hj_lt har
          rw [processNode_eq, processNode_eq, if_neg hv, if_neg hv]
          simp only [htg]
          unfold dispatch_op
          rw [updCol_self, updCol_self]
          refine dispatchLoop_lane_congr O N nodes _ _ r 0 _ (j - 1) false _ _ har ?_ ?_
          · intro k hk
            exact ih (by omega) k (by omega)
          · intro hc
            exact absurd hc (by simp)

theorem processBlock_lane_point (O : ScalarOps T) (ds : Dataset) (rg : Range)
    (nodes : List Node) (ps : List T) (row remaining r : ℕ) (hr : r < remaining)
    (hvalid : ValidTree nodes) (m : Buffer T) (hinv : EntryInv O nodes ps m)
    (j : ℕ) (hj : j < nodes.length) :
    processBlock O ds rg nodes ps row remaining m j r =
      pointCols O nodes ps ds (rg.Start + row + r) j 0 :=
  processPrefix_lane_point O ds rg nodes ps row remaining r hr hvalid m hinv
    nodes.length le_rfl j hj

theorem processBlock_entryInv (O : ScalarOps T) (ds : Dataset) (rg : Range)
    (nodes : List Node) (ps : List T) (row remaining : ℕ) (m : Buffer T)
    (hinv : EntryInv O nodes ps m) :
    EntryInv O nodes ps (processBlock O ds rg nodes ps row remaining m) :=
  processPrefix_entryInv O ds rg nodes ps row remaining nodes.length m hinv

theorem blockLoop_point (O : ScalarOps T) (S : ℕ) (ds : Dataset) (rg : Range)
    (nodes : List Node) (ps : List T) (numRows : ℕ) (hS : 1 ≤ S)
    (hvalid : ValidTree nodes) (hlen : 0 < nodes.length) :
    ∀ (fuel row : ℕ) (m : Buffer T) (res : ℕ → T), numRows - row ≤ fuel →
      EntryInv O nodes ps m →
      ∀ k, blockLoop O S ds rg nodes ps numRows fuel row m res k =
        if row ≤ k ∧ k < numRows then
          pointCols O nodes ps ds (rg.Start + k) (nodes.length - 1) 0
        else res k := by
  intro fuel
  induction fuel with
  | zero =>
    intro row m res hfuel hinv k
    simp only [blockLoop]
    rw [if_neg (by omega)]
  | succ fuel ih =>
    intro row m res hfuel hinv k
    simp only [blockLoop]
    by_cases hrow : row < numRows
    · rw [if_pos hrow]
      rw [ih (row + S) _ _ (by omega)
        (processBlock_entryInv O ds rg nodes ps row _ m hinv) k]
      by_cases h1 : row + S ≤ k ∧ k < numRows
      · rw [if_pos h1, if_pos (by omega)]
      · rw [if_neg h1]
        by_cases h2 : row ≤ k ∧ k < row + min S (numRows - row)
        · rw [if_pos h2]
          rw [processBlock_lane_point O ds rg nodes ps row _ (k - row) (by omega)
            hvalid m hinv (nodes.length - 1) (by omega)]
          rw [if_pos (by omega)]
          have harg : rg.Start + row + (k - row) = rg.Start + k := by omega
          rw [harg]
        · rw [if_neg h2, if_neg (by omega)]
    · rw [if_neg hrow, if_neg (by omega)]

theorem evaluateSpan_point (O : ScalarOps T) (S : ℕ) (tree : List Node) (ds : Dataset)
    (rg : Range) (params : Option (List T)) (hS : 1 ≤ S) (hvalid : ValidTree tree)
    (hlen : 0 < tree.length) (k : ℕ) (hk : k < rg.Size) :
    EvaluateSpan O S tree ds rg params k =
      pointCols O tree (paramsOf O params tree) ds (rg.Start + k) (tree.length - 1) 0 := by
  unfold EvaluateSpan
  rw [blockLoop_point O S ds rg tree (paramsOf O params tree) rg.Size hS hvalid hlen
    rg.Size 0 _ _ (by omega) (fun j hj => rfl) k]
  rw [if_pos ⟨Nat.zero_le k, hk⟩]

theorem batchFold_point (O : ScalarOps T) (S : ℕ) (tree : List Node) (ds : Dataset)
    (rg : Range) (B : ℕ) (params : Option (List T)) (hS : 1 ≤ S)
    (hvalid : ValidTree tree) (hlen : 0 < tree.length) :
    ∀ (t k : ℕ), k < rg.Size → k < t * B →
      ((List.range t).foldl (batchTile O S tree ds rg B params) (fun _ => O.zero)) k =
        pointCols O tree (paramsOf O params tree) ds (rg.Start + k) (tree.length - 1) 0 := by
  intro t
  induction t with
  | zero => intro k hk h0; omega
  | succ t ih =>
    intro k hk hkt
    rw [Nat.succ_mul] at hkt
    rw [List.range_succ, List.foldl_append, List.foldl_cons, List.foldl_nil]
    have hdef : batchTile O S tree ds rg B params
        ((List.range t).foldl (batchTile O S tree ds rg B params) (fun _ => O.zero)) t k =
        if t * B ≤ k ∧
            k < t * B + (min (rg.Start + t * B + B) rg.End - (rg.Start + t * B)) then
          EvaluateSpan O S tree ds
            { Start := rg.Start + t * B, End := min (rg.Start + t * B + B) rg.End }
            params (k - t * B)
        else ((List.range t).foldl (batchTile O S tree ds rg B params) (fun _ => O.zero)) k :=
      rfl
    rw [hdef]
    have hk2 : k < rg.End - rg.Start := hk
    by_cases hreg : t * B ≤ k ∧
        k < t * B + (min (rg.Start + t * B + B) rg.End - (rg.Start + t * B))
    · rw [if_pos hreg]
      rw [evaluateSpan_point O S tree ds _ params hS hvalid hlen (k - t * B)
        (by show k - t * B < min (rg.Start + t * B + B) rg.End - (rg.Start + t * B)
            omega)]
      have harg : rg.Start + t * B + (k - t * B) = rg.Start + k := by omega
      rw [harg]
    · rw [if_neg hreg]
      exact ih k hk (by omega)

/-- C4: the batched overload returns the same vector as the single-range
overload on the whole range, and evaluating `[a, b)` equals the
concatenation of evaluating `[a, c)` and `[c, b)` for any `a ≤ c ≤ b`.  The
hypotheses are the interpreter preconditions: a valid non-empty tree and a
positive block width and batch size. -/
theorem evaluate_batched_and_block_independence (O : ScalarOps T) (S : ℕ)
    (tree : List Node) (ds : Dataset) (params : Option (List T)) (hS : 1 ≤ S)
    (hvalid : ValidTree tree) (hlen : 0 < tree.length) :
    (∀ (rg : Range) (B : ℕ), 1 ≤ B →
        EvaluateBatched O S tree ds rg B params = Evaluate O S tree ds rg params) ∧
    (∀ a c b : ℕ, a ≤ c → c ≤ b →
        Evaluate O S tree ds { Start := a, End := b } params =
          Evaluate O S tree ds { Start := a, End := c } params ++
            Evaluate O S tree ds { Start := c, End := b } params) := by
  constructor
  · intro rg B hB
    have hL : EvaluateBatched O S tree ds rg B params =
        (List.range rg.Size).map
          ((List.range (rg.Size / B + if rg.Size % B ≠ 0 then 1 else 0)).foldl
            (batchTile O S tree ds rg B params) (fun _ => O.zero)) := rfl
    have hR : Evaluate O S tree ds rg params =
        (List.range rg.Size).map (EvaluateSpan O S tree ds rg params) := rfl
    rw [hL, hR]
    apply List.map_congr_left
    intro k hk
    rw [List.mem_range] at hk
    have hdm := Nat.div_add_mod rg.Size B
    have hcount : k < (rg.Size / B + if rg.Size % B ≠ 0 then 1 else 0) * B := by
      rw [Nat.add_mul, Nat.mul_comm (rg.Size / B) B]
      by_cases hm : rg.Size % B = 0
      · simp only [hm, ne_eq, not_true_eq_false, if_false]
        omega
      · simp only [ne_eq, hm, not_false_eq_true, if_true]
        have hmB : rg.Size % B < B := Nat.mod_lt _ (by omega)
        omega
    rw [batchFold_point O S tree ds rg B params hS hvalid hlen _ k hk hcount,
        evaluateSpan_point O S tree ds rg params hS hvalid hlen k hk]
  · intro a c b hac hcb
    have h1 : Evaluate O S tree ds { Start := a, End := b } params =
        (List.range (b - a)).map
          (EvaluateSpan O S tree ds { Start := a, End := b } params) := rfl
    have h2 : Evaluate O S tree ds { Start := a, End := c } params =
        (List.range (c - a)).map
          (EvaluateSpan O S tree ds { Start := a, End := c } params) := rfl
    have h3 : Evaluate O S tree ds { Start := c, End := b } params =
        (List.range (b - c)).map
          (EvaluateSpan O S tree ds { Start := c, End := b } params) := rfl
    rw [h1, h2, h3]
    have hsplit : b - a = (c - a) + (b - c) := by omega
    rw [hsplit, List.range_add, List.map_append, List.map_map]
    congr 1
    · apply List.map_congr_left
      intro k hk
      rw [List.mem_range] at hk
      rw [evaluateSpan_point O S tree ds _ params hS hvalid hlen k
            (by show k < b - a; omega),
          evaluateSpan_point O S tree ds _ params hS hvalid hlen k
            (by show k < c - a; omega)]
    · apply List.map_congr_left
      intro k hk
      rw [List.mem_range] at hk
      simp only [Function.comp_apply]
      rw [evaluateSpan_point O S tree ds _ params hS hvalid hlen (c - a + k)
            (by show c - a + k < b - a; omega),
          evaluateSpan_point O S tree ds _ params hS hvalid hlen k
            (by show k < b - c; omega)]
      have harg : a + (c - a + k) = c + k := by omega
      rw [harg]

/-- Witness for `evaluate_batched_and_block_independence` on spec
scenario 5's tree over seven rows, batch size 3 and split point 3. -/
theorem evaluate_batched_and_block_independence_witness :
    EvaluateBatched ratOps 64 subFoldTree zeroDataset { Start := 0, End := 7 } 3 none =
      Evaluate ratOps 64 subFoldTree zeroDataset { Start := 0, End := 7 } none ∧
    Evaluate ratOps 64 subFoldTree zeroDataset { Start := 0, End := 7 } none =
      Evaluate ratOps 64 subFoldTree zeroDataset { Start := 0, End := 3 } none ++
        Evaluate ratOps 64 subFoldTree zeroDataset { Start := 3, End := 7 } none :=
  ⟨(evaluate_batched_and_block_independence ratOps 64 subFoldTree zeroDataset none
      (by decide) (by decide) (by decide)).1 { Start := 0, End := 7 } 3 (by decide),
   (evaluate_batched_and_block_independence ratOps 64 subFoldTree zeroDataset none
      (by decide) (by decide) (by decide)).2 0 3 7 (by decide) (by decide)⟩

theorem scatterCol_apply (outputs : List Dual) (s : ℕ) :
    ∀ (L : ℕ) (jac : ℕ → ℕ → ℚ) (ro c : ℕ),
      ((List.range L).foldl
        (fun j t => fun ro c =>
          if c = s + t ∧ ro < outputs.length then (outputs.getD ro dualOps.zero).v t
          else j ro c) jac) ro c =
      if s ≤ c ∧ c < s + L ∧ ro < outputs.length then
        (outputs.getD ro dualOps.zero).v (c - s)
      else jac ro c := by
  intro L
  induction L with
  | zero =>
    intro jac ro c
    simp only [List.range_zero, List.foldl_nil]
    rw [if_neg (by omega)]
  | succ L ih =>
    intro jac ro c
    rw [List.range_succ, List.foldl_append, List.foldl_cons, List.foldl_nil]
    show (if c = s + L ∧ ro < outputs.length then (outputs.getD ro dualOps.zero).v L
        else ((List.range L).foldl _ jac) ro c) = _
    by_cases h1 : c = s + L ∧ ro < outputs.length
    · rw [if_pos h1, if_pos (by omega)]
      have hcs : c - s = L := by omega
      rw [hcs]
    · rw [if_neg h1, ih jac ro c]
      by_cases h2 : s ≤ c ∧ c < s + L ∧ ro < outputs.length
      · rw [if_pos h2, if_pos (by omega)]
      · rw [if_neg h2, if_neg (by omega)]

theorem scatterRow_apply (outputs : List Dual) (s r : ℕ) :
    ∀ (L : ℕ) (jac : ℕ → ℕ → ℚ) (ro c : ℕ),
      ((List.range L).foldl
        (fun j i => fun ro c =>
          if ro = i ∧ s ≤ c ∧ c < r then (outputs.getD i dualOps.zero).v (c - s)
          else j ro c) jac) ro c =
      if ro < L ∧ s ≤ c ∧ c < r then (outputs.getD ro dualOps.zero).v (c - s)
      else jac ro c := by
  intro L
  induction L with
  | zero =>
    intro jac ro c
    simp only [List.range_zero, List.foldl_nil]
    rw [if_neg (by omega)]
  | succ L ih =>
    intro jac ro c
    rw [List.range_succ, List.foldl_append, List.foldl_cons, List.foldl_nil]
    show (if ro = L ∧ s ≤ c ∧ c < r then (outputs.getD L dualOps.zero).v (c - s)
        else ((List.range L).foldl _ jac) ro c) = _
    by_cases h1 : ro = L ∧ s ≤ c ∧ c < r
    · rw [if_pos h1, if_pos (by omega)]
      rw [h1.1]
    · rw [if_neg h1, ih jac ro c]
      by_cases h2 : ro < L ∧ s ≤ c ∧ c < r
      · rw [if_pos h2, if_pos (by omega)]
      · rw [if_neg h2, if_neg (by omega)]

theorem derivSweep_order (S D : ℕ) (tree : List Node) (ds : Dataset) (rg : Range)
    (P : ℕ) :
    ∀ (fuel s : ℕ) (inputs : List Dual) (jac1 jac2 : ℕ → ℕ → ℚ),
      (∀ ro c, jac1 ro c = jac2 ro c) →
      ∀ ro c, derivSweep S D tree ds rg P true fuel s inputs jac1 ro c =
        derivSweep S D tree ds rg P false fuel s inputs jac2 ro c := by
  intro fuel
  induction fuel with
  | zero => intro s inputs jac1 jac2 h ro c; exact h ro c
  | succ fuel ih =>
    intro s inputs jac1 jac2 h ro c
    simp only [derivSweep]
    by_cases hs : s < P
    · rw [if_pos hs, if_pos hs]
      apply ih
      intro ro2 c2
      simp only [if_true, Bool.false_eq_true, if_false]
      unfold scatterCol scatterRow
      rw [scatterCol_apply, scatterRow_apply]
      by_cases h1 : s ≤ c2 ∧ c2 < min P (s + D) ∧
          ro2 < (Evaluate dualOps S tree ds rg (some (seedInputs inputs s (min P (s + D))))).length
      · rw [if_pos (by omega), if_pos (by omega)]
      · rw [if_neg (by omega), if_neg (by omega)]
        exact h ro2 c2
    · rw [if_neg hs, if_neg hs]
      exact h ro c

/-- C7: the Jacobian computed with row-major storage order holds exactly
the same values as the Jacobian computed with column-major storage order —
both scatters write, for every chunk `[s, r)`, the value
`outputs[row].v[i − s]` into entry `(row, i)` of a zero-initialised matrix,
and the chunk sweep itself does not depend on the storage order. -/
theorem jacobian_storage_order (S D : ℕ) (tree : List Node) (ds : Dataset)
    (coeff : List ℚ) (rg : Range) (hD : 1 ≤ D) (ro c : ℕ) :
    jacobianOf S D tree ds coeff rg true ro c =
      jacobianOf S D tree ds coeff rg false ro c := by
  unfold jacobianOf
  exact derivSweep_order S D tree ds rg coeff.length coeff.length 0 _ _ _
    (fun _ _ => rfl) ro c

/-- Witness for `jacobian_storage_order` at the C2 scenario's entry
`(0, 4)`. -/
theorem jacobian_storage_order_witness :
    jacobianOf 4 4 addOptTree zeroDataset [1, 1, 1, 1, 1] { Start := 0, End := 1 } true 0 4 =
      jacobianOf 4 4 addOptTree zeroDataset [1, 1, 1, 1, 1] { Start := 0, End := 1 } false 0 4 :=
  jacobian_storage_order 4 4 addOptTree zeroDataset [1, 1, 1, 1, 1]
    { Start := 0, End := 1 } (by decide) 0 4

end Operon
